import Mathlib

/-!
Verification of the OData-style filter round trip of the nest-monorepo
repository: the client-side serializer (`buildFilterQueryParams` and its
helpers, from the frontend odata-filter utilities), the server-side
parser (`parseFilterQueryParams`, `parseODataExpression`,
`tokenizeODataExpression`, `parseValue`) and the predicate translator
(`convertFiltersToFindOptionsWhere`).

Strings are modelled as Lean `String`s, with the character-level loops of
the source running over `List Char` (the `.data` of the string).  JavaScript
numbers are modelled as `Int`: the only numeric literals the filter syntax
produces or consumes are optional-sign decimal integer literals, and both
`String(n)` and `Number(s)` are modelled on that fragment.  Loops whose
cursor can skip several positions per iteration are written with an explicit
fuel argument equal to the input length, which makes every function total,
structurally recursive and computable by `rfl`/`decide`.
-/

namespace NestFilter

/-- The value union `string | number | boolean | string[] | null` of the
shared `ParsedFilter` model (odata-filter.models).  At runtime the parser can
in fact place arbitrary parsed values inside arrays, so array elements are
again `FilterValue`.  `Date` values (accepted by the serializer's `any`
signature) are outside this model. -/
inductive FilterValue where
  | null
  | str (s : String)
  | num (n : Int)
  | bool (b : Bool)
  | arr (elems : List FilterValue)

/-- The shared `ParsedFilter` / `ODataFilter` shape `{prop, operator, value}`.
The `operator` field is a plain string: the TypeScript source casts the
lower-cased token with `as FilterOperator`, so at runtime it is whatever
string passed (or was assumed to pass) the membership check. -/
structure ParsedFilter where
  prop : String
  operator : String
  value : FilterValue

/-- `Object.values(FilterOperator)`: the closed list of operator strings of
the shared `FilterOperator` enum, in declaration order. -/
def FilterOperator : List String :=
  ["eq", "ne", "gt", "ge", "lt", "le",
   "contains", "startswith", "endswith",
   "in", "notIn", "isNull", "isNotNull"]

/-- The same operator strings as character lists, for the token-level
membership check of the parser. -/
def filterOperatorData : List (List Char) := FilterOperator.map String.data

/-- JavaScript `/\s/` on the ASCII range (space, tab, newline, carriage
return, vertical tab, form feed). -/
def jsWs (c : Char) : Bool :=
  c == ' ' || c == '\t' || c == '\n' || c == '\r' || c == '\x0b' || c == '\x0c'

/-- JavaScript `String.prototype.toLowerCase` on one character (ASCII
letters; other characters are fixed). -/
def charToLower (c : Char) : Char :=
  if 65 ≤ c.toNat ∧ c.toNat ≤ 90 then Char.ofNat (c.toNat + 32) else c

/-- JavaScript `String.prototype.trim` on a character list. -/
def trimChars (l : List Char) : List Char :=
  ((l.dropWhile jsWs).reverse.dropWhile jsWs).reverse

/-- JavaScript `Array.prototype.join(sep)` on a list of strings. -/
def jsJoin (sep : List Char) : List (List Char) → List Char
  | [] => []
  | [x] => x
  | x :: xs => x ++ sep ++ jsJoin sep xs

/-- JavaScript `String.prototype.split(sep)` for a one-character separator
(empty pieces are kept; splitting the empty string gives `[""]`). -/
def jsSplitChar (sep : Char) : List Char → List (List Char)
  | [] => [[]]
  | c :: rest =>
    if c = sep then [] :: jsSplitChar sep rest
    else
      match jsSplitChar sep rest with
      | h :: t => (c :: h) :: t
      | [] => [[c]]

/-- `value.replace(/'/g, "''")`: double every single quote (the serializer's
SQL-style escaping). -/
def doubleQuoteEsc : List Char → List Char
  | [] => []
  | c :: rest =>
    if c = '\'' then '\'' :: '\'' :: doubleQuoteEsc rest
    else c :: doubleQuoteEsc rest

/-- `token.replace(/''/g, "'")`: collapse doubled single quotes, scanning
left to right without overlap (the parser's un-escaping). -/
def undoubleQuotes : List Char → List Char
  | '\'' :: '\'' :: rest => '\'' :: undoubleQuotes rest
  | c :: rest => c :: undoubleQuotes rest
  | [] => []

/-- Decimal digits of `n`, most significant first; the fuel is an upper
bound on the recursion depth (`n` itself is always enough). -/
def natDigitsGo : Nat → Nat → List Char
  | 0, n => [Char.ofNat (48 + n % 10)]
  | fuel + 1, n =>
    if n < 10 then [Char.ofNat (48 + n)]
    else natDigitsGo fuel (n / 10) ++ [Char.ofNat (48 + n % 10)]

/-- JavaScript `String(n)` for an integer-valued number: optional sign and
decimal digits. -/
def jsNumToString (n : Int) : List Char :=
  if n < 0 then '-' :: natDigitsGo n.natAbs n.natAbs
  else natDigitsGo n.natAbs n.natAbs

/-- Is `c` one of `0`..`9`? -/
def isDigitChar (c : Char) : Bool := 48 ≤ c.toNat && c.toNat ≤ 57

/-- Numeric value of a digit character. -/
def digitToNat (c : Char) : Nat := c.toNat - 48

/-- Value of a most-significant-first digit list. -/
def decimalValue (l : List Char) : Nat :=
  l.foldl (fun a c => a * 10 + digitToNat c) 0

/-- JavaScript `Number(token)` restricted to the fragment the filter syntax
uses: an optional-sign decimal integer literal evaluates to its value,
everything else (including the empty string, which the source excludes with
its own `token !== ''` guard) is treated as not-a-number. -/
def jsNumberParse : List Char → Option Int
  | [] => none
  | c :: rest =>
    if c = '-' then
      if rest ≠ [] ∧ rest.all isDigitChar then some (-(decimalValue rest : Int))
      else none
    else
      if (c :: rest).all isDigitChar then some ((decimalValue (c :: rest) : Int))
      else none

/-- JavaScript `String(value)` on a `FilterValue` (arrays join their
elements' string forms with commas). -/
def jsStringChars : FilterValue → List Char
  | .null => "null".data
  | .str s => s.data
  | .num n => jsNumToString n
  | .bool b => if b then "true".data else "false".data
  | .arr vs => jsJoin [','] (jsStringList vs)
where
  /-- String forms of a list of values. -/
  jsStringList : List FilterValue → List (List Char)
  | [] => []
  | v :: vs => jsStringChars v :: jsStringList vs

/-! ## Serializer (frontend odata-filter utilities) -/

/-- `formatFilterValue` of the frontend utilities: render one filter value
into its OData textual form.  The `Date` branch of the source is outside the
`FilterValue` model. -/
def formatFilterValue (value : FilterValue) : List Char :=
  match value with
  | .null => "null".data
  | .arr vs =>
    '(' :: jsJoin ", ".data (vs.map (fun v =>
      match v with
      | .str s =>
        if s.data.any (fun c => c == ' ' || c == '\'' || c == '"') then
          '\'' :: doubleQuoteEsc s.data ++ ['\'']
        else s.data
      | other => jsStringChars other)) ++ [')']
  | .bool b => if b then "true".data else "false".data
  | .str s =>
    if s.data.any (fun c => c == ' ' || c == '\'' || c == '"' || c == '@') then
      '\'' :: doubleQuoteEsc s.data ++ ['\'']
    else s.data
  | .num n => jsNumToString n

/-- `filterToODataExpression`: one filter descriptor to one expression
string (`"<prop> <operator> <value>"`, value omitted for the null
operators). -/
def filterToODataExpression (filter : ParsedFilter) : List Char :=
  if filter.operator = "isNull" then filter.prop.data ++ " isNull".data
  else if filter.operator = "isNotNull" then filter.prop.data ++ " isNotNull".data
  else if filter.operator = "in" ∨ filter.operator = "notIn" then
    filter.prop.data ++ [' '] ++ filter.operator.data ++ [' '] ++ formatFilterValue filter.value
  else
    filter.prop.data ++ [' '] ++ filter.operator.data ++ [' '] ++ formatFilterValue filter.value

/-- `buildFilterQueryParams`: join the expressions with the logical
operator; an empty filter list yields no `filter` parameter (modelled as
`none`). -/
def buildFilterQueryParams (filters : List ParsedFilter) (logicalOperator : String) :
    Option String :=
  match filters with
  | [] => none
  | _ =>
    let expressions := filters.map filterToODataExpression
    some (String.mk (jsJoin ([' '] ++ logicalOperator.data ++ [' ']) expressions))

/-! ## Tokenizer (backend odata-filter utilities) -/

/-- The character loop of `tokenizeODataExpression`.  State: the previous
raw character (for the backslash look-back), the in-quotes flag, the opening
quote character, the accumulating token and the emitted tokens. -/
def tokenizeGo : Option Char → Bool → Option Char → List Char → List (List Char) →
    List Char → List (List Char)
  | _, _, _, current, acc, [] =>
    acc ++ (if trimChars current ≠ [] then [trimChars current] else [])
  | prev, inQuotes, qc, current, acc, c :: cs =>
    if (c = '\'' ∨ c = '"') ∧ prev ≠ some '\\' then
      if ¬ inQuotes then
        (if trimChars current ≠ [] then
          tokenizeGo (some c) true (some c) [c] (acc ++ [trimChars current]) cs
        else
          tokenizeGo (some c) true (some c) (current ++ [c]) acc cs)
      else if some c = qc then
        tokenizeGo (some c) false none [] (acc ++ [current ++ [c]]) cs
      else
        tokenizeGo (some c) inQuotes qc (current ++ [c]) acc cs
    else if inQuotes then
      tokenizeGo (some c) inQuotes qc (current ++ [c]) acc cs
    else if jsWs c then
      (if trimChars current ≠ [] then
        tokenizeGo (some c) inQuotes qc [] (acc ++ [trimChars current]) cs
      else
        tokenizeGo (some c) inQuotes qc current acc cs)
    else if c = '(' ∨ c = ')' then
      (if trimChars current ≠ [] then
        tokenizeGo (some c) inQuotes qc [] (acc ++ [trimChars current, [c]]) cs
      else
        tokenizeGo (some c) inQuotes qc current (acc ++ [[c]]) cs)
    else
      tokenizeGo (some c) inQuotes qc (current ++ [c]) acc cs

/-- `tokenizeODataExpression`: tokens of a raw expression, with the final
empty-token filter of the source. -/
def tokenizeODataExpression (expression : List Char) : List (List Char) :=
  (tokenizeGo none false none [] [] expression).filter (fun t => t.length > 0)

/-! ## Value parser -/

/-- One layer of `parseValue`, parameterised by the recursive call used for
the elements of a parenthesised array value.  Check order as in the source:
`null`, quoted string, parenthesised array, booleans, number, bare string. -/
def parseValueCore (recur : List Char → FilterValue) (token : List Char) : FilterValue :=
  if token = "null".data then .null
  else if (token.head? = some '\'' ∧ token.getLast? = some '\'') ∨
          (token.head? = some '"' ∧ token.getLast? = some '"') then
    .str (String.mk (undoubleQuotes (token.drop 1).dropLast))
  else if token.head? = some '(' ∧ token.getLast? = some ')' then
    .arr ((jsSplitChar ',' ((token.drop 1).dropLast)).map (fun piece => recur (trimChars piece)))
  else if token = "true".data then .bool true
  else if token = "false".data then .bool false
  else
    match jsNumberParse token with
    | some n => .num n
    | none => .str (String.mk token)

/-- `parseValue` with fuel bounding the nesting depth of parenthesised
values; the interesting (array) recursion always happens on a strictly
shorter token, so fuel equal to the token length is always enough. -/
def parseValueGo : Nat → List Char → FilterValue
  | 0, token => parseValueCore (fun _ => .null) token
  | fuel + 1, token => parseValueCore (fun t => parseValueGo fuel t) token

/-- `parseValue` of the source. -/
def parseValue (token : List Char) : FilterValue :=
  parseValueGo token.length token

/-! ## Expression parser -/

/-- The inner `while (j < tokens.length && tokens[j] !== ')')` collection of
array values for the `in` operator: returns the collected value tokens
(commas and opening parens skipped) and the tokens after the closing paren
(everything consumed when no closing paren exists, matching `i = j + 1`). -/
def collectArray : List (List Char) → List (List Char) × List (List Char)
  | [] => ([], [])
  | t :: ts =>
    if t = ")".data then ([], ts)
    else
      let (vs, rem) := collectArray ts
      if t ≠ ",".data ∧ t ≠ "(".data then (t :: vs, rem) else (vs, rem)

/-- The cursor loop of `parseODataExpression` over the token list.  Fuel is
the number of remaining loop iterations; the cursor advances at least one
token per iteration so fuel equal to the token count is always enough. -/
def parseLoop : Nat → List (List Char) → List ParsedFilter
  | _, [] => []
  | 0, _ :: _ => []
  | fuel + 1, t :: rest =>
    if t.map charToLower = "and".data ∨ t.map charToLower = "or".data then
      parseLoop fuel rest
    else
      match rest with
      | o :: v :: rest2 =>
        if (o.map charToLower = "in".data ∨ o.map charToLower = "notIn".data) ∧
            v = "(".data ∧ rest2 ≠ [] then
          (if o.map charToLower ∈ filterOperatorData then
            [{ prop := String.mk t, operator := String.mk (o.map charToLower),
               value := parseValue ('(' :: jsJoin ", ".data (collectArray rest2).1 ++ [')']) }]
           else []) ++ parseLoop fuel (collectArray rest2).2
        else
          (if o.map charToLower ∈ filterOperatorData then
            [{ prop := String.mk t, operator := String.mk (o.map charToLower),
               value := parseValue v }]
           else []) ++ parseLoop fuel rest2
      | _ => parseLoop fuel rest

/-- `parseODataExpression`: tokenize, then run the cursor loop. -/
def parseODataExpression (expression : List Char) : List ParsedFilter :=
  let tokens := tokenizeODataExpression expression
  parseLoop tokens.length tokens

/-! ## Top-level query-parameter parser -/

/-- The `remaining.match(/^\s+and\s+/i)` (resp. `or`) test of
`parseFilterQueryParams`: length of the match of one-or-more whitespace,
the word case-insensitively, and one-or-more whitespace (both runs
greedy-maximal, which is exact for this anchored pattern). -/
def matchJoin (word : List Char) (s : List Char) : Option Nat :=
  let ws1 := s.takeWhile jsWs
  if ws1 = [] then none
  else
    let r1 := s.drop ws1.length
    if (r1.take word.length).map charToLower = word then
      let r2 := r1.drop word.length
      let ws2 := r2.takeWhile jsWs
      if ws2 = [] then none else some (ws1.length + word.length + ws2.length)
    else none

/-- The string-level splitting loop of `parseFilterQueryParams`: split on
`and`/`or` joiners, pushing trimmed segments and `AND`/`OR` markers.  Fuel
bounds the iterations; a match always advances the cursor by at least one
character. -/
def splitJoinGo : Nat → List Char → List Char → List (List Char) → List (List Char)
  | _, [], current, parts =>
    parts ++ (if trimChars current ≠ [] then [trimChars current] else [])
  | 0, _ :: _, current, parts =>
    parts ++ (if trimChars current ≠ [] then [trimChars current] else [])
  | fuel + 1, c :: cs, current, parts =>
    match matchJoin "and".data (c :: cs) with
    | some len =>
      if trimChars current ≠ [] then
        splitJoinGo fuel ((c :: cs).drop len) [] (parts ++ [trimChars current, "AND".data])
      else
        splitJoinGo fuel ((c :: cs).drop len) current parts
    | none =>
      match matchJoin "or".data (c :: cs) with
      | some len =>
        if trimChars current ≠ [] then
          splitJoinGo fuel ((c :: cs).drop len) [] (parts ++ [trimChars current, "OR".data])
        else
          splitJoinGo fuel ((c :: cs).drop len) current parts
      | none => splitJoinGo fuel cs (current ++ [c]) parts

/-- `parseFilterQueryParams`: the `filter` field of the query (absent or
non-string modelled as `none`; the empty string is falsy and also yields
`[]`), split on the string-level joiners, parse every non-marker part, and
concatenate all filters. -/
def parseFilterQueryParams (query : Option String) : List ParsedFilter :=
  match query with
  | none => []
  | some filterExpression =>
    if filterExpression = "" then []
    else
      let parts := splitJoinGo filterExpression.data.length filterExpression.data [] []
      ((parts.filter (fun p => p ≠ "AND".data ∧ p ≠ "OR".data)).map
        (fun part => parseODataExpression part)).flatten

/-! ## Predicate translator -/

/-- TypeORM's `FindOperator` shapes used by the translator (symbolic). -/
inductive FindOperator where
  | equal (v : FilterValue)
  | moreThan (v : FilterValue)
  | moreThanOrEqual (v : FilterValue)
  | lessThan (v : FilterValue)
  | lessThanOrEqual (v : FilterValue)
  | like (pat : String)
  | inArr (vs : List FilterValue)
  | isNull
  | notOp (inner : FindOperator)

/-- The switch body of `convertFiltersToFindOptionsWhere` for one filter:
the predicate written to `where[prop]`, or `none` when the `in`/`notIn`
guard rejects a missing or empty array value and nothing is written. -/
def translateFilter (filter : ParsedFilter) : Option FindOperator :=
  match filter.operator with
  | "eq" =>
    some (match filter.value with
      | .null => .isNull
      | v => .equal v)
  | "ne" =>
    some (match filter.value with
      | .null => .notOp .isNull
      | v => .notOp (.equal v))
  | "gt" => some (.moreThan filter.value)
  | "ge" => some (.moreThanOrEqual filter.value)
  | "lt" => some (.lessThan filter.value)
  | "le" => some (.lessThanOrEqual filter.value)
  | "contains" => some (.like (String.mk ('%' :: jsStringChars filter.value ++ ['%'])))
  | "startswith" => some (.like (String.mk (jsStringChars filter.value ++ ['%'])))
  | "endswith" => some (.like (String.mk ('%' :: jsStringChars filter.value)))
  | "in" =>
    match filter.value with
    | .arr vs => if 0 < vs.length then some (.inArr vs) else none
    | _ => none
  | "notIn" =>
    match filter.value with
    | .arr vs => if 0 < vs.length then some (.notOp (.inArr vs)) else none
    | _ => none
  | "isNull" => some .isNull
  | "isNotNull" => some (.notOp .isNull)
  | _ => some (.equal filter.value)

/-- Does a value fail the translator's `Array.isArray(value) &&
value.length > 0` guard: not an array at all, or the empty array. -/
def badArrValue : FilterValue → Prop
  | .arr vs => vs = []
  | _ => True

instance : DecidablePred badArrValue
  | .null => .isTrue trivial
  | .str _ => .isTrue trivial
  | .num _ => .isTrue trivial
  | .bool _ => .isTrue trivial
  | .arr [] => .isTrue rfl
  | .arr (_ :: _) => .isFalse (List.cons_ne_nil _ _)

/-- JavaScript object assignment `where[prop] = v`: replace the entry in
place if the key exists, append otherwise. -/
def objSet : List (String × FindOperator) → String → FindOperator →
    List (String × FindOperator)
  | [], k, v => [(k, v)]
  | (k', v') :: rest, k, v =>
    if k' = k then (k, v) :: rest else (k', v') :: objSet rest k v

/-- JavaScript property read `where[prop]`. -/
def objGet : List (String × FindOperator) → String → Option FindOperator
  | [], _ => none
  | (k', v') :: rest, k => if k' = k then some v' else objGet rest k

/-- `convertFiltersToFindOptionsWhere`: fold the filters into a property-
keyed predicate object; each filter either assigns `where[prop]` or (for the
rejected `in`/`notIn` cases) leaves the object unchanged. -/
def convertFiltersToFindOptionsWhere (filters : List ParsedFilter) :
    List (String × FindOperator) :=
  filters.foldl (fun w f =>
    match translateFilter f with
    | some pr => objSet w f.prop pr
    | none => w) []

/-- Modelled from the spec's words for the §3 invariant, for comparison with
the code: the predicate of the last filter on property `p` whose translation
actually produces a predicate (`none` when no filter on `p` produces one;
filters whose `in`/`notIn` guard rejects the value leave the previous
predicate in place).  Later filters are the tail of the list, so the tail is
consulted first. -/
def lastWrittenPredicate : List ParsedFilter → String → Option FindOperator
  | [], _ => none
  | f :: rest, p =>
    match lastWrittenPredicate rest p with
    | some pr => some pr
    | none => if f.prop = p then translateFilter f else none

/-! ## Round-trip domain

The amended round-trip claim quantifies over descriptor sequences that stay
inside the fragment the serializer/parser pair does preserve: bare
lowercase-alphabetic property names and string values (no reserved words, so
the value parser's coercions cannot fire), boolean values, and integer
number values within JavaScript's safe-integer range (where `String`/`Number`
behave as decimal integer printing/parsing). -/

/-- An ASCII lowercase letter. -/
def lowerAlphaChar (c : Char) : Prop := 97 ≤ c.toNat ∧ c.toNat ≤ 122

instance : DecidablePred lowerAlphaChar := fun _ =>
  inferInstanceAs (Decidable (_ ∧ _))

/-- A character the tokenizer treats as ordinary text: not whitespace, not a
quote, not a parenthesis. -/
def plainChar (c : Char) : Prop :=
  jsWs c = false ∧ c ≠ '\'' ∧ c ≠ '"' ∧ c ≠ '(' ∧ c ≠ ')'

/-- A non-empty all-lowercase-alphabetic word. -/
def bareWord (l : List Char) : Prop := l ≠ [] ∧ ∀ c ∈ l, lowerAlphaChar c

instance : DecidablePred bareWord := fun _ =>
  inferInstanceAs (Decidable (_ ∧ _))

/-- A property name that round trips: a bare word that is not a joiner. -/
def goodProp (s : String) : Prop := bareWord s.data ∧ s ≠ "and" ∧ s ≠ "or"

instance : DecidablePred goodProp := fun _ =>
  inferInstanceAs (Decidable (_ ∧ _))

/-- A string value that round trips: a bare word that is not one of the
literals the value parser coerces and not a joiner. -/
def goodStrValue (s : String) : Prop :=
  bareWord s.data ∧ s ≠ "null" ∧ s ≠ "true" ∧ s ≠ "false" ∧ s ≠ "and" ∧ s ≠ "or"

instance : DecidablePred goodStrValue := fun _ =>
  inferInstanceAs (Decidable (_ ∧ _))

/-- The operators whose serialized form the parser accepts back: the
all-lowercase members of `FilterOperator` other than the array and null
operators. -/
def serializableOps : List String :=
  ["eq", "ne", "gt", "ge", "lt", "le", "contains", "startswith", "endswith"]

/-- A value that round trips. -/
def goodValue : FilterValue → Prop
  | .str s => goodStrValue s
  | .bool _ => True
  | .num n => n.natAbs ≤ 2 ^ 53
  | .null => False
  | .arr _ => False

instance : DecidablePred goodValue
  | .str s => inferInstanceAs (Decidable (goodStrValue s))
  | .bool _ => inferInstanceAs (Decidable True)
  | .num n => inferInstanceAs (Decidable (n.natAbs ≤ 2 ^ 53))
  | .null => inferInstanceAs (Decidable False)
  | .arr _ => inferInstanceAs (Decidable False)

/-- A filter descriptor inside the round-tripping fragment. -/
def goodFilter (f : ParsedFilter) : Prop :=
  goodProp f.prop ∧ f.operator ∈ serializableOps ∧ goodValue f.value

instance : DecidablePred goodFilter := fun _ =>
  inferInstanceAs (Decidable (_ ∧ _))

/-- The parts list the string-level splitter produces for a well-formed
conjunction: the expressions interleaved with `AND` markers. -/
def withAndMarkers : List (List Char) → List (List Char)
  | [] => []
  | [e] => [e]
  | e :: es => e :: "AND".data :: withAndMarkers es

/-! ## Helper lemmas about the predicate object -/

theorem objGet_objSet_same (w : List (String × FindOperator)) (k : String)
    (v : FindOperator) : objGet (objSet w k v) k = some v := by
  induction w with
  | nil => simp [objSet, objGet]
  | cons kv rest ih =>
    obtain ⟨k', v'⟩ := kv
    by_cases h : k' = k
    · simp [objSet, objGet, h]
    · simp [objSet, objGet, h, ih]

theorem objGet_objSet_other (w : List (String × FindOperator)) (k p : String)
    (v : FindOperator) (h : p ≠ k) : objGet (objSet w k v) p = objGet w p := by
  have hkp : ¬ k = p := fun hh => h hh.symm
  induction w with
  | nil => simp [objSet, objGet, hkp]
  | cons kv rest ih =>
    obtain ⟨k', v'⟩ := kv
    by_cases hk : k' = k
    · subst hk
      simp [objSet, objGet, hkp]
    · simp only [objSet, if_neg hk, objGet]
      by_cases hp : k' = p
      · simp [hp]
      · simp [hp, ih]

theorem objGet_convert_fold (filters : List ParsedFilter)
    (w : List (String × FindOperator)) (p : String) :
    objGet (filters.foldl (fun w f =>
      match translateFilter f with
      | some pr => objSet w f.prop pr
      | none => w) w) p =
    match lastWrittenPredicate filters p with
    | some pr => some pr
    | none => objGet w p := by
  induction filters generalizing w with
  | nil => simp [lastWrittenPredicate]
  | cons f rest ih =>
    rw [List.foldl_cons, ih]
    cases hlw : lastWrittenPredicate rest p with
    | some pr => simp [lastWrittenPredicate, hlw]
    | none =>
      simp only [lastWrittenPredicate, hlw]
      by_cases hp : f.prop = p
      · cases htr : translateFilter f with
        | some pr =>
          subst hp
          simp [htr, objGet_objSet_same]
        | none => simp [hp, htr]
      · cases htr : translateFilter f with
        | some pr =>
          have hne : p ≠ f.prop := fun hh => hp hh.symm
          simp [htr, if_neg hp, objGet_objSet_other _ _ _ _ hne]
        | none => simp [htr, if_neg hp]

/-! ## Helper lemmas about the expression parser -/

theorem charOfNat_toNat (n : Nat) (h : Nat.isValidChar n) : (Char.ofNat n).toNat = n := by
  simp [Char.ofNat, h, Char.ofNatAux, Char.toNat, UInt32.toNat, BitVec.toNat_ofNatLt]

/-- The result of `charToLower` is never an ASCII uppercase letter. -/
theorem charToLower_not_upper (c : Char) :
    ¬ (65 ≤ (charToLower c).toNat ∧ (charToLower c).toNat ≤ 90) := by
  unfold charToLower
  split
  · rename_i h
    rw [charOfNat_toNat _ (Or.inl (by omega))]
    omega
  · rename_i h
    exact h

/-- A lower-cased token is never equal to a character list containing an
ASCII uppercase letter. -/
theorem map_charToLower_ne (t target : List Char)
    (h : ∃ c ∈ target, 65 ≤ c.toNat ∧ c.toNat ≤ 90) :
    t.map charToLower ≠ target := by
  intro heq
  obtain ⟨c, hc, hup⟩ := h
  rw [← heq, List.mem_map] at hc
  obtain ⟨c', _, hcc⟩ := hc
  exact charToLower_not_upper c' (hcc ▸ hup)

/-- The token list remaining after the array-collection loop is never longer
than its input. -/
theorem collectArray_rem_length_le (ts : List (List Char)) :
    (collectArray ts).2.length ≤ ts.length := by
  induction ts with
  | nil => simp [collectArray]
  | cons t ts ih =>
    rw [collectArray]
    by_cases h : t = ")".data
    · rw [if_pos h]
      simp
    · cases hc : collectArray ts with
      | mk vs rem =>
        rw [hc] at ih
        rw [if_neg h]
        show (if t ≠ ",".data ∧ t ≠ "(".data then
            (t :: vs, rem) else (vs, rem)).2.length ≤ ts.length + 1
        split <;> exact Nat.le_succ_of_le ih

theorem not_two_cons_nil {α : Type} :
    ∀ (o v : α) (r : List α), ([] : List α) = o :: v :: r → False := by
  intro o v r h
  cases h

theorem not_two_cons_single {α : Type} (x : α) :
    ∀ (o v : α) (r : List α), [x] = o :: v :: r → False := by
  intro o v r h
  simp at h

/-- For a short tail (fewer than two tokens after the head) the cursor loop
just advances by one. -/
theorem parseLoop_short (fuel : Nat) (t : List Char) (rest : List (List Char))
    (h : ∀ (o v : List Char) (r : List (List Char)), rest = o :: v :: r → False) :
    parseLoop (fuel + 1) (t :: rest) = parseLoop fuel rest := by
  rw [parseLoop.eq_4 _ _ _ h]
  split <;> rfl

/-- `parseLoop` does not depend on the fuel as long as the fuel is at least
the number of tokens. -/
theorem parseLoop_fuel_irrel (fuel₁ fuel₂ : Nat) (ts : List (List Char))
    (h₁ : ts.length ≤ fuel₁) (h₂ : ts.length ≤ fuel₂) :
    parseLoop fuel₁ ts = parseLoop fuel₂ ts := by
  induction fuel₁ generalizing fuel₂ ts with
  | zero =>
    have : ts = [] := List.length_eq_zero.mp (Nat.le_zero.mp h₁)
    subst this
    rw [parseLoop.eq_1, parseLoop.eq_1]
  | succ n ih =>
    cases ts with
    | nil => rw [parseLoop.eq_1, parseLoop.eq_1]
    | cons t rest =>
      obtain ⟨m, rfl⟩ : ∃ m, fuel₂ = m + 1 := by
        cases fuel₂ with
        | zero => simp at h₂
        | succ m => exact ⟨m, rfl⟩
      have hrest : rest.length ≤ n := by
        simp only [List.length_cons] at h₁; omega
      have hrest₂ : rest.length ≤ m := by
        simp only [List.length_cons] at h₂; omega
      rcases rest with _ | ⟨o, rest'⟩
      · rw [parseLoop_short _ _ _ not_two_cons_nil,
          parseLoop_short _ _ _ not_two_cons_nil]
        exact ih m [] (by simp) (by simp)
      · rcases rest' with _ | ⟨v, rest2⟩
        · rw [parseLoop_short _ _ _ (not_two_cons_single o),
            parseLoop_short _ _ _ (not_two_cons_single o)]
          exact ih m [o] hrest hrest₂
        · have hr2 : rest2.length ≤ n := by
            simp only [List.length_cons] at hrest; omega
          have hr2' : rest2.length ≤ m := by
            simp only [List.length_cons] at hrest₂; omega
          rw [parseLoop.eq_3, parseLoop.eq_3]
          by_cases hj : t.map charToLower = "and".data ∨ t.map charToLower = "or".data
          · rw [if_pos hj, if_pos hj]
            exact ih m (o :: v :: rest2) hrest hrest₂
          · rw [if_neg hj, if_neg hj]
            by_cases hin : (o.map charToLower = "in".data ∨
                o.map charToLower = "notIn".data) ∧ v = "(".data ∧ rest2 ≠ []
            · rw [if_pos hin, if_pos hin]
              have hrem : (collectArray rest2).2.length ≤ rest2.length :=
                collectArray_rem_length_le rest2
              rw [ih m (collectArray rest2).2 (by omega) (by omega)]
            · rw [if_neg hin, if_neg hin]
              rw [ih m rest2 hr2 hr2']

/-- Every filter the cursor loop emits has as its operator the lower-cased
form of some token. -/
theorem parseLoop_operator_shape (fuel : Nat) (ts : List (List Char))
    (f : ParsedFilter) (hf : f ∈ parseLoop fuel ts) :
    ∃ o : List Char, f.operator = String.mk (o.map charToLower) := by
  induction fuel generalizing ts with
  | zero =>
    cases ts with
    | nil =>
      rw [parseLoop.eq_1] at hf
      cases hf
    | cons t rest =>
      rw [parseLoop.eq_2] at hf
      cases hf
  | succ n ih =>
    cases ts with
    | nil =>
      rw [parseLoop.eq_1] at hf
      cases hf
    | cons t rest =>
      rcases rest with _ | ⟨o, rest'⟩
      · rw [parseLoop_short _ _ _ not_two_cons_nil] at hf
        exact ih [] hf
      · rcases rest' with _ | ⟨v, rest2⟩
        · rw [parseLoop_short _ _ _ (not_two_cons_single o)] at hf
          exact ih [o] hf
        · rw [parseLoop.eq_3] at hf
          by_cases hj : t.map charToLower = "and".data ∨ t.map charToLower = "or".data
          · rw [if_pos hj] at hf
            exact ih _ hf
          · rw [if_neg hj] at hf
            by_cases hin : (o.map charToLower = "in".data ∨
                o.map charToLower = "notIn".data) ∧ v = "(".data ∧ rest2 ≠ []
            · rw [if_pos hin] at hf
              rw [List.mem_append] at hf
              rcases hf with hf | hf
              · by_cases hmem : o.map charToLower ∈ filterOperatorData
                · rw [if_pos hmem, List.mem_singleton] at hf
                  exact ⟨o, by rw [hf]⟩
                · rw [if_neg hmem] at hf
                  cases hf
              · exact ih _ hf
            · rw [if_neg hin] at hf
              rw [List.mem_append] at hf
              rcases hf with hf | hf
              · by_cases hmem : o.map charToLower ∈ filterOperatorData
                · rw [if_pos hmem, List.mem_singleton] at hf
                  exact ⟨o, by rw [hf]⟩
                · rw [if_neg hmem] at hf
                  cases hf
              · exact ih _ hf

/-! ## Character-class lemmas -/

theorem ne_of_toNat_lt (c d : Char) (hc : 97 ≤ c.toNat) (hd : d.toNat < 97) : c ≠ d := by
  intro h
  subst h
  omega

theorem lower_not_ws (c : Char) (h : 97 ≤ c.toNat) : jsWs c = false := by
  simp only [jsWs, Bool.or_eq_false_iff, beq_eq_false_iff_ne]
  refine ⟨⟨⟨⟨⟨?_, ?_⟩, ?_⟩, ?_⟩, ?_⟩, ?_⟩ <;>
    exact ne_of_toNat_lt c _ h (by decide)

theorem digit_not_ws (c : Char) (h : isDigitChar c = true) : jsWs c = false := by
  simp only [isDigitChar, Bool.and_eq_true, decide_eq_true_eq] at h
  simp only [jsWs, Bool.or_eq_false_iff, beq_eq_false_iff_ne]
  refine ⟨⟨⟨⟨⟨?_, ?_⟩, ?_⟩, ?_⟩, ?_⟩, ?_⟩ <;>
    · intro hh
      subst hh
      revert h
      decide

theorem lower_plain (c : Char) (h : lowerAlphaChar c) : plainChar c := by
  obtain ⟨h1, _⟩ := h
  exact ⟨lower_not_ws c h1,
    ne_of_toNat_lt c _ h1 (by decide), ne_of_toNat_lt c _ h1 (by decide),
    ne_of_toNat_lt c _ h1 (by decide), ne_of_toNat_lt c _ h1 (by decide)⟩

theorem digit_plain (c : Char) (h : isDigitChar c = true) : plainChar c := by
  have hws := digit_not_ws c h
  simp only [isDigitChar, Bool.and_eq_true, decide_eq_true_eq] at h
  refine ⟨hws, ?_, ?_, ?_, ?_⟩ <;>
    · intro hh
      subst hh
      revert h
      decide

theorem charToLower_fix (c : Char) (h : ¬ (65 ≤ c.toNat ∧ c.toNat ≤ 90)) :
    charToLower c = c := by
  unfold charToLower
  rw [if_neg h]

theorem lower_charToLower_fix (c : Char) (h : 97 ≤ c.toNat) : charToLower c = c :=
  charToLower_fix c (by omega)

theorem map_charToLower_fix (l : List Char) (h : ∀ c ∈ l, 97 ≤ c.toNat) :
    l.map charToLower = l := by
  induction l with
  | nil => rfl
  | cons c cs ih =>
    rw [List.map_cons, lower_charToLower_fix c (h c (List.mem_cons_self c cs)),
      ih (fun d hd => h d (List.mem_cons_of_mem c hd))]

theorem stringData_inj {s u : String} (h : s.data = u.data) : s = u := by
  cases s
  cases u
  exact congrArg String.mk h

theorem string_ne_data {s u : String} (h : s ≠ u) : s.data ≠ u.data :=
  fun hd => h (stringData_inj hd)

theorem stringMk_data (s : String) : String.mk s.data = s := rfl

/-! ## Number round-trip lemmas -/

theorem natDigitsGo_spec (fuel n : Nat) :
    natDigitsGo fuel n ≠ [] ∧ ∀ c ∈ natDigitsGo fuel n, isDigitChar c = true := by
  induction fuel generalizing n with
  | zero =>
    refine ⟨by simp [natDigitsGo], ?_⟩
    intro c hc
    simp only [natDigitsGo, List.mem_singleton] at hc
    subst hc
    have hv : (Char.ofNat (48 + n % 10)).toNat = 48 + n % 10 :=
      charOfNat_toNat _ (Or.inl (by omega))
    simp only [isDigitChar, hv, Bool.and_eq_true, decide_eq_true_eq]
    omega
  | succ fuel ih =>
    rw [natDigitsGo]
    by_cases hn : n < 10
    · rw [if_pos hn]
      refine ⟨by simp, ?_⟩
      intro c hc
      simp only [List.mem_singleton] at hc
      subst hc
      have hv : (Char.ofNat (48 + n)).toNat = 48 + n :=
        charOfNat_toNat _ (Or.inl (by omega))
      simp only [isDigitChar, hv, Bool.and_eq_true, decide_eq_true_eq]
      omega
    · rw [if_neg hn]
      refine ⟨by simp [(ih (n / 10)).1], ?_⟩
      intro c hc
      rw [List.mem_append] at hc
      rcases hc with hc | hc
      · exact (ih (n / 10)).2 c hc
      · simp only [List.mem_singleton] at hc
        subst hc
        have hv : (Char.ofNat (48 + n % 10)).toNat = 48 + n % 10 :=
          charOfNat_toNat _ (Or.inl (by omega))
        simp only [isDigitChar, hv, Bool.and_eq_true, decide_eq_true_eq]
        omega

theorem decimalValue_append (l : List Char) (c : Char) :
    decimalValue (l ++ [c]) = decimalValue l * 10 + digitToNat c := by
  unfold decimalValue
  rw [List.foldl_append]
  rfl

theorem decimalValue_natDigitsGo (fuel n : Nat) (h : n ≤ fuel) :
    decimalValue (natDigitsGo fuel n) = n := by
  induction fuel generalizing n with
  | zero =>
    have : n = 0 := Nat.le_zero.mp h
    subst this
    decide
  | succ fuel ih =>
    rw [natDigitsGo]
    by_cases hn : n < 10
    · rw [if_pos hn]
      have hv : (Char.ofNat (48 + n)).toNat = 48 + n :=
        charOfNat_toNat _ (Or.inl (by omega))
      simp only [decimalValue, List.foldl_cons, List.foldl_nil, digitToNat, hv]
      omega
    · rw [if_neg hn]
      rw [decimalValue_append]
      have hdiv : n / 10 ≤ fuel := by
        have := Nat.div_lt_self (by omega : 0 < n) (by omega : 1 < 10)
        omega
      rw [ih _ hdiv]
      have hv : (Char.ofNat (48 + n % 10)).toNat = 48 + n % 10 :=
        charOfNat_toNat _ (Or.inl (by omega))
      simp only [digitToNat, hv]
      omega

theorem jsNum_roundtrip (n : Int) : jsNumberParse (jsNumToString n) = some n := by
  unfold jsNumToString
  obtain ⟨hne, hdig⟩ := natDigitsGo_spec n.natAbs n.natAbs
  by_cases hn : n < 0
  · rw [if_pos hn, jsNumberParse, if_pos rfl,
      if_pos ⟨hne, List.all_eq_true.mpr hdig⟩,
      decimalValue_natDigitsGo _ _ (Nat.le_refl _)]
    congr 1
    omega
  · rw [if_neg hn]
    obtain ⟨c, cs, hcons⟩ : ∃ c cs, natDigitsGo n.natAbs n.natAbs = c :: cs := by
      cases hh : natDigitsGo n.natAbs n.natAbs with
      | nil => exact absurd hh hne
      | cons c cs => exact ⟨c, cs, rfl⟩
    rw [hcons, jsNumberParse]
    have hcdig : isDigitChar c = true := hdig c (by rw [hcons]; exact List.mem_cons_self c cs)
    have hcne : ¬ c = '-' := by
      intro hh
      subst hh
      exact absurd hcdig (by decide)
    rw [if_neg hcne, if_pos (by rw [← hcons]; exact List.all_eq_true.mpr hdig),
      ← hcons, decimalValue_natDigitsGo _ _ (Nat.le_refl _)]
    congr 1
    omega

/-! ## Trim lemmas -/

theorem trimChars_cons_concat (c : Char) (mid : List Char) (d : Char)
    (hc : jsWs c = false) (hd : jsWs d = false) :
    trimChars (c :: (mid ++ [d])) = c :: (mid ++ [d]) := by
  unfold trimChars
  rw [List.dropWhile_cons, if_neg (by simp [hc])]
  have hrev : (c :: (mid ++ [d])).reverse = d :: (mid.reverse ++ [c]) := by
    simp
  rw [hrev, List.dropWhile_cons, if_neg (by simp [hd]), ← hrev, List.reverse_reverse]

theorem trimChars_single (c : Char) (hc : jsWs c = false) : trimChars [c] = [c] := by
  unfold trimChars
  rw [List.dropWhile_cons, if_neg (by simp [hc])]
  simp [List.dropWhile_cons, hc]

/-! ## Value round-trip lemmas -/

theorem cons_ne_of_head {c d : Char} (cs ds : List Char) (h : c ≠ d) :
    c :: cs ≠ d :: ds := by
  intro hh
  injection hh with h1 _
  exact h h1

theorem formatFilterValue_bare_str (s : String) (h : ∀ c ∈ s.data, lowerAlphaChar c) :
    formatFilterValue (.str s) = s.data := by
  have hany : s.data.any (fun c => c == ' ' || c == '\'' || c == '"' || c == '@') = false := by
    rw [List.any_eq_false]
    intro c hc
    have hl := (h c hc).1
    simp only [Bool.or_eq_true, beq_iff_eq, not_or]
    refine ⟨⟨⟨?_, ?_⟩, ?_⟩, ?_⟩ <;> exact ne_of_toNat_lt c _ hl (by decide)
  simp [formatFilterValue, hany]

theorem parseValueGo_eq_core (fuel : Nat) (t : List Char) :
    ∃ r, parseValueGo fuel t = parseValueCore r t := by
  cases fuel with
  | zero => exact ⟨_, rfl⟩
  | succ n => exact ⟨_, rfl⟩

theorem parseValueCore_bare (r : List Char → FilterValue) (t : List Char)
    (h1 : t ≠ "null".data)
    (h2 : ¬((t.head? = some '\'' ∧ t.getLast? = some '\'') ∨
            (t.head? = some '"' ∧ t.getLast? = some '"')))
    (h3 : ¬(t.head? = some '(' ∧ t.getLast? = some ')'))
    (h4 : t ≠ "true".data) (h5 : t ≠ "false".data)
    (h6 : jsNumberParse t = none) :
    parseValueCore r t = .str (String.mk t) := by
  unfold parseValueCore
  rw [if_neg h1, if_neg h2, if_neg h3, if_neg h4, if_neg h5, h6]

theorem parseValue_bare (t : List Char) (hne : t ≠ [])
    (hlow : ∀ c ∈ t, lowerAlphaChar c)
    (h1 : t ≠ "null".data) (h4 : t ≠ "true".data) (h5 : t ≠ "false".data) :
    parseValue t = .str (String.mk t) := by
  obtain ⟨c, cs, rfl⟩ : ∃ c cs, t = c :: cs := by
    cases t with
    | nil => exact absurd rfl hne
    | cons c cs => exact ⟨c, cs, rfl⟩
  have hc : 97 ≤ c.toNat := (hlow c (List.mem_cons_self c cs)).1
  obtain ⟨r, hr⟩ := parseValueGo_eq_core ((c :: cs).length) (c :: cs)
  rw [parseValue, hr]
  apply parseValueCore_bare _ _ h1 ?_ ?_ h4 h5 ?_
  · rintro (⟨hq, -⟩ | ⟨hq, -⟩) <;>
      · simp only [List.head?_cons, Option.some.injEq] at hq
        exact ne_of_toNat_lt c _ hc (by decide) hq
  · rintro ⟨hq, -⟩
    simp only [List.head?_cons, Option.some.injEq] at hq
    exact ne_of_toNat_lt c _ hc (by decide) hq
  · have hcd : ¬ c = '-' := ne_of_toNat_lt c _ hc (by decide)
    have hnd : ¬ ((c :: cs).all isDigitChar = true) := by
      intro hall
      rw [List.all_eq_true] at hall
      have hd := hall c (List.mem_cons_self c cs)
      simp only [isDigitChar, Bool.and_eq_true, decide_eq_true_eq] at hd
      omega
    simp only [jsNumberParse, if_neg hcd, if_neg hnd]

theorem parseValue_bool (b : Bool) :
    parseValue (formatFilterValue (.bool b)) = .bool b := by
  cases b <;> rfl

theorem jsNumToString_head (n : Int) :
    ∃ c cs, jsNumToString n = c :: cs ∧
      (c.toNat = 45 ∨ (48 ≤ c.toNat ∧ c.toNat ≤ 57)) := by
  obtain ⟨hne0, hdig⟩ := natDigitsGo_spec n.natAbs n.natAbs
  unfold jsNumToString
  by_cases hn : n < 0
  · exact ⟨'-', _, by rw [if_pos hn], Or.inl (by decide)⟩
  · rw [if_neg hn]
    cases hh : natDigitsGo n.natAbs n.natAbs with
    | nil => exact absurd hh hne0
    | cons c cs =>
      have hc := hdig c (by rw [hh]; exact List.mem_cons_self c cs)
      simp only [isDigitChar, Bool.and_eq_true, decide_eq_true_eq] at hc
      exact ⟨c, cs, rfl, Or.inr hc⟩

theorem jsNumToString_plain (n : Int) :
    jsNumToString n ≠ [] ∧ ∀ c ∈ jsNumToString n, plainChar c := by
  obtain ⟨hne0, hdig⟩ := natDigitsGo_spec n.natAbs n.natAbs
  unfold jsNumToString
  by_cases hn : n < 0
  · rw [if_pos hn]
    refine ⟨by simp, ?_⟩
    intro c hc
    rw [List.mem_cons] at hc
    rcases hc with rfl | hc
    · exact ⟨by decide, by decide, by decide, by decide, by decide⟩
    · exact digit_plain c (hdig c hc)
  · rw [if_neg hn]
    exact ⟨hne0, fun c hc => digit_plain c (hdig c hc)⟩

theorem parseValue_num (n : Int) : parseValue (jsNumToString n) = .num n := by
  obtain ⟨c, cs, hL, hcnat⟩ := jsNumToString_head n
  have hne : ∀ (d : Char), 97 ≤ d.toNat → c ≠ d := by
    intro d hd heq
    subst heq
    rcases hcnat with h | h <;> omega
  have hcne : ∀ (d : Char), d.toNat ≠ 45 → (d.toNat < 48 ∨ 57 < d.toNat) → c ≠ d := by
    intro d h1 h2 heq
    subst heq
    rcases hcnat with h | h <;> omega
  have hnum : jsNumberParse (c :: cs) = some n := by
    rw [← hL]
    exact jsNum_roundtrip n
  obtain ⟨r, hr⟩ := parseValueGo_eq_core (c :: cs).length (c :: cs)
  rw [hL, parseValue, hr]
  unfold parseValueCore
  rw [if_neg (cons_ne_of_head _ _ (hne 'n' (by decide)))]
  rw [if_neg ?hq, if_neg ?hp,
    if_neg (cons_ne_of_head _ _ (hne 't' (by decide))),
    if_neg (cons_ne_of_head _ _ (hne 'f' (by decide))), hnum]
  case hq =>
    rintro (⟨hq, -⟩ | ⟨hq, -⟩) <;>
      · simp only [List.head?_cons, Option.some.injEq] at hq
        exact hcne _ (by decide) (by decide) hq
  case hp =>
    rintro ⟨hq, -⟩
    simp only [List.head?_cons, Option.some.injEq] at hq
    exact hcne _ (by decide) (by decide) hq

/-! ## Tokenizer lemmas -/

theorem trimChars_all_nonws (l : List Char) (h : ∀ c ∈ l, jsWs c = false) :
    trimChars l = l := by
  unfold trimChars
  have h1 : List.dropWhile jsWs l = l := by
    cases l with
    | nil => rfl
    | cons c cs =>
      rw [List.dropWhile_cons, if_neg (by simp [h c (List.mem_cons_self c cs)])]
  rw [h1]
  have h2 : List.dropWhile jsWs l.reverse = l.reverse := by
    cases hh : l.reverse with
    | nil => rfl
    | cons c cs =>
      have hc : c ∈ l := by
        rw [← List.mem_reverse, hh]
        exact List.mem_cons_self c cs
      rw [List.dropWhile_cons, if_neg (by simp [h c hc])]
  rw [h2, List.reverse_reverse]

theorem tokenizeGo_plain_space (t : List Char) :
    ∀ (rest : List Char) (prev qc : Option Char) (cur : List Char)
      (acc : List (List Char)),
    (∀ c ∈ t, plainChar c) → (∀ c ∈ cur, plainChar c) → cur ++ t ≠ [] →
    tokenizeGo prev false qc cur acc (t ++ (' ' :: rest)) =
      tokenizeGo (some ' ') false qc [] (acc ++ [cur ++ t]) rest := by
  induction t with
  | nil =>
    intro rest prev qc cur acc _ hcur hne
    rw [List.append_nil] at hne
    rw [List.nil_append, tokenizeGo.eq_2]
    rw [if_neg (show ¬((' ' = '\'' ∨ ' ' = '"') ∧ prev ≠ some '\\') from
      fun h => by rcases h.1 with h1 | h1 <;> exact absurd h1 (by decide))]
    rw [if_neg (show ¬(false = true) by simp)]
    rw [if_pos (show jsWs ' ' = true from by decide)]
    rw [trimChars_all_nonws cur (fun c hc => (hcur c hc).1)]
    rw [if_pos hne, List.append_nil]
  | cons c t' ih =>
    intro rest prev qc cur acc hpt hcur hne
    have hc := hpt c (List.mem_cons_self c t')
    rw [List.cons_append, tokenizeGo.eq_2]
    rw [if_neg (fun h => (h.1).elim hc.2.1 hc.2.2.1)]
    rw [if_neg (show ¬(false = true) by simp)]
    rw [if_neg (show ¬(jsWs c = true) by simp [hc.1])]
    rw [if_neg (fun h => h.elim hc.2.2.2.1 hc.2.2.2.2)]
    rw [ih rest (some c) qc (cur ++ [c]) acc
      (fun d hd => hpt d (List.mem_cons_of_mem c hd))
      (fun d hd => by
        rcases List.mem_append.mp hd with h | h
        · exact hcur d h
        · rw [List.mem_singleton] at h
          subst h
          exact hc)
      (by simp)]
    rw [List.append_assoc, List.singleton_append]

theorem tokenizeGo_plain_end (t : List Char) :
    ∀ (prev qc : Option Char) (cur : List Char) (acc : List (List Char)),
    (∀ c ∈ t, plainChar c) → (∀ c ∈ cur, plainChar c) → cur ++ t ≠ [] →
    tokenizeGo prev false qc cur acc t = acc ++ [cur ++ t] := by
  induction t with
  | nil =>
    intro prev qc cur acc _ hcur hne
    rw [List.append_nil] at hne ⊢
    rw [tokenizeGo.eq_1, trimChars_all_nonws cur (fun c hc => (hcur c hc).1),
      if_pos hne]
  | cons c t' ih =>
    intro prev qc cur acc hpt hcur hne
    have hc := hpt c (List.mem_cons_self c t')
    rw [tokenizeGo.eq_2]
    rw [if_neg (fun h => (h.1).elim hc.2.1 hc.2.2.1)]
    rw [if_neg (show ¬(false = true) by simp)]
    rw [if_neg (show ¬(jsWs c = true) by simp [hc.1])]
    rw [if_neg (fun h => h.elim hc.2.2.2.1 hc.2.2.2.2)]
    rw [ih (some c) qc (cur ++ [c]) acc
      (fun d hd => hpt d (List.mem_cons_of_mem c hd))
      (fun d hd => by
        rcases List.mem_append.mp hd with h | h
        · exact hcur d h
        · rw [List.mem_singleton] at h
          subst h
          exact hc)
      (by simp)]
    rw [List.append_assoc, List.singleton_append]

theorem tokenize_three (p o v : List Char)
    (hp : p ≠ []) (hpl : ∀ c ∈ p, plainChar c)
    (ho : o ≠ []) (hol : ∀ c ∈ o, plainChar c)
    (hv : v ≠ []) (hvl : ∀ c ∈ v, plainChar c) :
    tokenizeODataExpression (p ++ ' ' :: (o ++ ' ' :: v)) = [p, o, v] := by
  unfold tokenizeODataExpression
  rw [tokenizeGo_plain_space p (o ++ ' ' :: v) none none [] [] hpl
    (by simp) (by simpa using hp)]
  rw [tokenizeGo_plain_space o v (some ' ') none [] ([] ++ [[] ++ p]) hol
    (by simp) (by simpa using ho)]
  rw [tokenizeGo_plain_end v (some ' ') none [] _ hvl (by simp) (by simpa using hv)]
  show List.filter (fun t => t.length > 0) [p, o, v] = [p, o, v]
  rw [List.filter_eq_self]
  intro a ha
  simp only [List.mem_cons, List.not_mem_nil, or_false] at ha
  simp only [gt_iff_lt, decide_eq_true_eq]
  rcases ha with rfl | rfl | rfl <;> exact List.length_pos.mpr ‹a ≠ []›

/-! ## Splitter lemmas -/

theorem matchJoin_head_not_ws (w : List Char) (c : Char) (l : List Char)
    (h : jsWs c = false) : matchJoin w (c :: l) = none := by
  simp only [matchJoin, List.takeWhile_cons, h]
  simp

theorem matchJoin_pos {w s : List Char} {len : Nat}
    (h : matchJoin w s = some len) : 0 < len := by
  simp only [matchJoin] at h
  split at h
  · cases h
  · rename_i hws1
    split at h
    · split at h
      · cases h
      · rename_i hws2
        have h1 : 0 < (s.takeWhile jsWs).length :=
          List.length_pos.mpr hws1
        injection h with h2
        omega
    · cases h

theorem splitJoinGo_fuel_irrel (fuel₁ fuel₂ : Nat) (s cur : List Char)
    (parts : List (List Char)) (h₁ : s.length ≤ fuel₁) (h₂ : s.length ≤ fuel₂) :
    splitJoinGo fuel₁ s cur parts = splitJoinGo fuel₂ s cur parts := by
  induction fuel₁ generalizing fuel₂ s cur parts with
  | zero =>
    have : s = [] := List.length_eq_zero.mp (Nat.le_zero.mp h₁)
    subst this
    rw [splitJoinGo.eq_1, splitJoinGo.eq_1]
  | succ n ih =>
    cases s with
    | nil => rw [splitJoinGo.eq_1, splitJoinGo.eq_1]
    | cons c cs =>
      obtain ⟨m, rfl⟩ : ∃ m, fuel₂ = m + 1 := by
        cases fuel₂ with
        | zero => simp at h₂
        | succ m => exact ⟨m, rfl⟩
      rw [splitJoinGo.eq_3, splitJoinGo.eq_3]
      have hlen : cs.length ≤ n := by simp only [List.length_cons] at h₁; omega
      have hlen₂ : cs.length ≤ m := by simp only [List.length_cons] at h₂; omega
      cases hand : matchJoin "and".data (c :: cs) with
      | some len =>
        have hpos : 0 < len := matchJoin_pos hand
        have hdrop : ((c :: cs).drop len).length ≤ n := by
          simp only [List.length_drop, List.length_cons]
          omega
        have hdrop₂ : ((c :: cs).drop len).length ≤ m := by
          simp only [List.length_drop, List.length_cons]
          omega
        simp only [hand]
        split <;> exact ih m _ _ _ hdrop hdrop₂
      | none =>
        simp only [hand]
        cases hor : matchJoin "or".data (c :: cs) with
        | some len =>
          have hpos : 0 < len := matchJoin_pos hor
          have hdrop : ((c :: cs).drop len).length ≤ n := by
            simp only [List.length_drop, List.length_cons]
            omega
          have hdrop₂ : ((c :: cs).drop len).length ≤ m := by
            simp only [List.length_drop, List.length_cons]
            omega
          simp only [hor]
          split <;> exact ih m _ _ _ hdrop hdrop₂
        | none =>
          simp only [hor]
          exact ih m cs (cur ++ [c]) parts hlen hlen₂

theorem splitJoinGo_scan_plain (t : List Char) :
    ∀ (s cur : List Char) (parts : List (List Char)) (fuel₁ fuel₂ : Nat),
    (∀ c ∈ t, jsWs c = false) →
    (t ++ s).length ≤ fuel₁ → s.length ≤ fuel₂ →
    splitJoinGo fuel₁ (t ++ s) cur parts = splitJoinGo fuel₂ s (cur ++ t) parts := by
  induction t with
  | nil =>
    intro s cur parts fuel₁ fuel₂ _ h₁ h₂
    rw [List.nil_append, List.append_nil]
    exact splitJoinGo_fuel_irrel _ _ _ _ _ h₁ h₂
  | cons c t' ih =>
    intro s cur parts fuel₁ fuel₂ hws h₁ h₂
    have hc := hws c (List.mem_cons_self c t')
    obtain ⟨n, rfl⟩ : ∃ n, fuel₁ = n + 1 := by
      cases fuel₁ with
      | zero => rw [List.cons_append] at h₁; simp at h₁
      | succ n => exact ⟨n, rfl⟩
    rw [List.cons_append, splitJoinGo.eq_3]
    simp only [matchJoin_head_not_ws "and".data c (t' ++ s) hc,
      matchJoin_head_not_ws "or".data c (t' ++ s) hc]
    rw [ih s (cur ++ [c]) parts n fuel₂
      (fun d hd => hws d (List.mem_cons_of_mem c hd))
      (by rw [List.cons_append, List.length_cons] at h₁; omega) h₂]
    rw [List.append_assoc, List.singleton_append]

theorem jsWs_space : jsWs ' ' = true := rfl

theorem matchJoin_space_head_ne (w0 : Char) (wr : List Char) (c : Char) (s : List Char)
    (hc : jsWs c = false) (hne : charToLower c ≠ w0) :
    matchJoin (w0 :: wr) (' ' :: c :: s) = none := by
  simp only [matchJoin, List.takeWhile_cons, jsWs_space, hc, Bool.false_eq_true,
    ite_false, ite_true, if_true, if_false]
  simp [List.take, List.drop, hne]

theorem matchJoin_space_word (w v rest : List Char)
    (hw : ∀ c ∈ w, 97 ≤ c.toNat ∧ c.toNat ≤ 122)
    (hv : v ≠ []) (hvl : ∀ c ∈ v, 97 ≤ c.toNat ∧ c.toNat ≤ 122)
    (hvw : v ≠ w)
    (hrest : rest = [] ∨ ∃ r, rest = ' ' :: r) :
    matchJoin w (' ' :: (v ++ rest)) = none := by
  obtain ⟨c, v', rfl⟩ : ∃ c v', v = c :: v' := by
    cases v with
    | nil => exact absurd rfl hv
    | cons c v' => exact ⟨c, v', rfl⟩
  have hc1 : 97 ≤ c.toNat := (hvl c (List.mem_cons_self c v')).1
  have hcws : jsWs c = false := lower_not_ws c hc1
  rw [List.cons_append]
  simp only [matchJoin, List.takeWhile_cons, hcws]
  simp only [jsWs_space, if_true, Bool.false_eq_true, ite_false,
    ite_true, List.length_cons, List.length_nil, List.drop_succ_cons, List.drop_zero]
  rw [if_neg (by simp)]
  rw [← List.cons_append]
  by_cases hpre : (((c :: v') ++ rest).take w.length).map charToLower = w
  · rw [if_pos hpre]
    rcases Nat.lt_trichotomy w.length (c :: v').length with hlt | heq | hgt
    · -- w strictly shorter than v: the remainder after w starts with a letter of v
      have hdropeq : ((c :: v') ++ rest).drop w.length =
          (c :: v').drop w.length ++ rest :=
        List.drop_append_of_le_length (Nat.le_of_lt hlt)
      obtain ⟨d, ds, hds⟩ : ∃ d ds, (c :: v').drop w.length = d :: ds := by
        cases hh : (c :: v').drop w.length with
        | nil =>
          have hld := List.length_drop w.length (c :: v')
          rw [hh] at hld
          simp only [List.length_nil] at hld
          omega
        | cons d ds => exact ⟨d, ds, rfl⟩
      have hd : jsWs d = false := by
        have hmem : d ∈ c :: v' := List.drop_subset _ _ (hds ▸ List.mem_cons_self d ds)
        exact lower_not_ws d (hvl d hmem).1
      rw [hdropeq, hds, List.cons_append, List.takeWhile_cons, hd]
      simp
    · -- equal length: the matched prefix is v itself, contradicting v ≠ w
      exfalso
      rw [List.take_append_of_le_length (Nat.le_of_eq heq), heq, List.take_length,
        map_charToLower_fix _ (fun d hd => (hvl d hd).1)] at hpre
      exact hvw hpre
    · -- w strictly longer than v: a space would have to occur inside w
      exfalso
      rcases hrest with rfl | ⟨r, rfl⟩
      · rw [List.append_nil, List.take_of_length_le (Nat.le_of_lt hgt),
          map_charToLower_fix _ (fun d hd => (hvl d hd).1)] at hpre
        have := congrArg List.length hpre
        omega
      · have hsp : ' ' ∈ ((c :: v') ++ ' ' :: r).take w.length := by
          rw [List.take_append_eq_append_take]
          refine List.mem_append_right _ ?_
          have h1 : 0 < w.length - (c :: v').length := by omega
          obtain ⟨k, hk⟩ : ∃ k, w.length - (c :: v').length = k + 1 :=
            ⟨_, (Nat.succ_pred_eq_of_pos h1).symm⟩
          rw [hk, List.take_succ_cons]
          exact List.mem_cons_self _ _
        have hspw : ' ' ∈ w := by
          rw [← hpre]
          exact List.mem_map.mpr ⟨' ', hsp, rfl⟩
        have := hw ' ' hspw
        revert this
        decide
  · rw [if_neg hpre]

theorem splitJoinGo_step_space (s cur : List Char) (parts : List (List Char))
    (fuel₁ fuel₂ : Nat) (h₁ : (' ' :: s).length ≤ fuel₁) (h₂ : s.length ≤ fuel₂)
    (hand : matchJoin "and".data (' ' :: s) = none)
    (hor : matchJoin "or".data (' ' :: s) = none) :
    splitJoinGo fuel₁ (' ' :: s) cur parts = splitJoinGo fuel₂ s (cur ++ [' ']) parts := by
  obtain ⟨n, rfl⟩ : ∃ n, fuel₁ = n + 1 := by
    cases fuel₁ with
    | zero => simp at h₁
    | succ n => exact ⟨n, rfl⟩
  rw [splitJoinGo.eq_3]
  simp only [hand, hor]
  exact splitJoinGo_fuel_irrel _ _ _ _ _
    (by simp only [List.length_cons] at h₁; omega) h₂

theorem splitJoinGo_sep (d : Char) (r cur : List Char) (parts : List (List Char))
    (fuel₁ fuel₂ : Nat) (hd : jsWs d = false) (htrim : trimChars cur ≠ [])
    (h₁ : (' ' :: 'a' :: 'n' :: 'd' :: ' ' :: d :: r).length ≤ fuel₁)
    (h₂ : (d :: r).length ≤ fuel₂) :
    splitJoinGo fuel₁ (' ' :: 'a' :: 'n' :: 'd' :: ' ' :: d :: r) cur parts =
      splitJoinGo fuel₂ (d :: r) [] (parts ++ [trimChars cur, "AND".data]) := by
  have hmatch : matchJoin "and".data (' ' :: 'a' :: 'n' :: 'd' :: ' ' :: d :: r) =
      some 5 := by
    simp only [matchJoin, List.takeWhile_cons, jsWs_space,
      show jsWs 'a' = false from rfl, show jsWs 'n' = false from rfl,
      show jsWs 'd' = false from rfl, hd, if_true, if_false, Bool.false_eq_true,
      ite_false, ite_true]
    simp [show charToLower 'a' = 'a' from rfl, show charToLower 'n' = 'n' from rfl,
      show charToLower 'd' = 'd' from rfl, List.take, List.drop,
      List.takeWhile_cons, jsWs_space, hd]
  obtain ⟨n, rfl⟩ : ∃ n, fuel₁ = n + 1 := by
    cases fuel₁ with
    | zero => simp at h₁
    | succ n => exact ⟨n, rfl⟩
  rw [splitJoinGo.eq_3]
  simp only [hmatch, if_pos htrim]
  show splitJoinGo n (d :: r) [] (parts ++ [trimChars cur, "AND".data]) = _
  exact splitJoinGo_fuel_irrel _ _ _ _ _
    (by simp only [List.length_cons] at h₁ ⊢; omega) h₂

/-! ## Per-expression round-trip lemmas -/

instance : DecidablePred plainChar := fun _ =>
  inferInstanceAs (Decidable (_ ∧ _))

theorem serializableOps_lower : ∀ op ∈ serializableOps,
    ∀ c ∈ (op : String).data, 97 ≤ c.toNat ∧ c.toNat ≤ 122 := by decide

theorem serializableOps_mem_data : ∀ op ∈ serializableOps,
    (op : String).data ∈ filterOperatorData := by decide

theorem serializableOps_props : ∀ op ∈ serializableOps,
    op ≠ "isNull" ∧ op ≠ "isNotNull" ∧ op ≠ "in" ∧ op ≠ "notIn" := by decide

theorem serializableOps_data_ne : ∀ op ∈ serializableOps,
    (op : String).data ≠ [] := by decide

theorem serializableOps_head : ∀ op ∈ serializableOps, ∀ c : Char,
    (op : String).data.head? = some c →
      charToLower c ≠ 'a' ∧ charToLower c ≠ 'o' ∧ jsWs c = false := by
  intro op hop
  simp only [serializableOps, List.mem_cons, List.not_mem_nil, or_false] at hop
  rcases hop with rfl | rfl | rfl | rfl | rfl | rfl | rfl | rfl | rfl <;>
    · intro c hc
      injection hc with hc
      subst hc
      decide

theorem not_ws_of_toNat (c : Char) (h : 14 ≤ c.toNat) (h2 : c.toNat ≠ 32) :
    jsWs c = false := by
  simp only [jsWs, Bool.or_eq_false_iff, beq_eq_false_iff_ne]
  refine ⟨⟨⟨⟨⟨?_, ?_⟩, ?_⟩, ?_⟩, ?_⟩, ?_⟩ <;>
    · intro hh
      subst hh
      revert h h2
      decide

theorem filterToODataExpression_good (f : ParsedFilter)
    (hop : f.operator ∈ serializableOps) :
    filterToODataExpression f =
      f.prop.data ++ ' ' :: (f.operator.data ++ ' ' :: formatFilterValue f.value) := by
  obtain ⟨h1, h2, h3, h4⟩ := serializableOps_props f.operator hop
  unfold filterToODataExpression
  rw [if_neg h1, if_neg h2, if_neg (fun h => h.elim h3 h4)]
  simp [List.append_assoc]

theorem goodValue_vtok (v : FilterValue) (h : goodValue v) :
    formatFilterValue v ≠ [] ∧ (∀ c ∈ formatFilterValue v, plainChar c) ∧
      parseValue (formatFilterValue v) = v := by
  cases v with
  | str s =>
    obtain ⟨⟨hne, hlow⟩, h1, h2, h3, h4, h5⟩ := (h : goodStrValue s)
    have hfmt : formatFilterValue (.str s) = s.data := formatFilterValue_bare_str s hlow
    rw [hfmt]
    refine ⟨hne, fun c hc => lower_plain c (hlow c hc), ?_⟩
    rw [parseValue_bare s.data hne hlow (string_ne_data h1) (string_ne_data h2)
      (string_ne_data h3), stringMk_data]
  | bool b => cases b <;> exact ⟨by decide, by decide, parseValue_bool _⟩
  | num n =>
    obtain ⟨hne, hpl⟩ := jsNumToString_plain n
    exact ⟨hne, hpl, parseValue_num n⟩
  | null => exact h.elim
  | arr l => exact h.elim

theorem goodValue_nomatch (v : FilterValue) (h : goodValue v) (rest : List Char)
    (hrest : rest = [] ∨ ∃ r, rest = ' ' :: r) :
    matchJoin "and".data (' ' :: (formatFilterValue v ++ rest)) = none ∧
    matchJoin "or".data (' ' :: (formatFilterValue v ++ rest)) = none := by
  cases v with
  | str s =>
    obtain ⟨⟨hne, hlow⟩, h1, h2, h3, h4, h5⟩ := (h : goodStrValue s)
    rw [formatFilterValue_bare_str s hlow]
    exact ⟨matchJoin_space_word _ _ _ (by decide) hne hlow (string_ne_data h4) hrest,
      matchJoin_space_word _ _ _ (by decide) hne hlow (string_ne_data h5) hrest⟩
  | bool b =>
    cases b <;>
      exact ⟨matchJoin_space_head_ne _ _ _ _ (by decide) (by decide),
        matchJoin_space_head_ne _ _ _ _ (by decide) (by decide)⟩
  | num n =>
    obtain ⟨c, cs, hL, hcnat⟩ := jsNumToString_head n
    have hshape : formatFilterValue (.num n) ++ rest = c :: (cs ++ rest) := by
      show jsNumToString n ++ rest = _
      rw [hL, List.cons_append]
    rw [hshape]
    have hws : jsWs c = false := not_ws_of_toNat c (by omega) (by omega)
    have hfix : charToLower c = c := charToLower_fix c (by omega)
    constructor <;>
      · apply matchJoin_space_head_ne _ _ _ _ hws
        rw [hfix]
        intro hh
        subst hh
        revert hcnat
        decide
  | null => exact h.elim
  | arr l => exact h.elim

theorem parseODataExpression_good (f : ParsedFilter) (h : goodFilter f) :
    parseODataExpression (filterToODataExpression f) = [f] := by
  obtain ⟨⟨⟨hpne, hplow⟩, hpa, hpo⟩, hop, hval⟩ := h
  obtain ⟨hvne, hvplain, hvparse⟩ := goodValue_vtok f.value hval
  rw [filterToODataExpression_good f hop]
  unfold parseODataExpression
  rw [tokenize_three f.prop.data f.operator.data (formatFilterValue f.value)
    hpne (fun c hc => lower_plain c (hplow c hc))
    (serializableOps_data_ne _ hop)
    (fun c hc => lower_plain c (serializableOps_lower _ hop c hc))
    hvne hvplain]
  show parseLoop (Nat.succ 2)
    [f.prop.data, f.operator.data, formatFilterValue f.value] = [f]
  rw [parseLoop.eq_3]
  have hpfix : f.prop.data.map charToLower = f.prop.data :=
    map_charToLower_fix _ (fun c hc => (hplow c hc).1)
  rw [if_neg (by
    rw [hpfix]
    rintro (hh | hh)
    · exact hpa (stringData_inj hh)
    · exact hpo (stringData_inj hh))]
  rw [if_neg (fun hh => hh.2.2 rfl)]
  have hofix : f.operator.data.map charToLower = f.operator.data :=
    map_charToLower_fix _ (fun c hc => (serializableOps_lower _ hop c hc).1)
  rw [hofix, if_pos (serializableOps_mem_data _ hop), hvparse,
    parseLoop.eq_1, List.append_nil, stringMk_data, stringMk_data]

theorem scan_expr (f : ParsedFilter) (hf : goodFilter f) (rest : List Char)
    (hrest : rest = [] ∨ ∃ r, rest = ' ' :: r) (fuel₁ fuel₂ : Nat)
    (parts : List (List Char))
    (h₁ : (filterToODataExpression f ++ rest).length ≤ fuel₁)
    (h₂ : rest.length ≤ fuel₂) :
    splitJoinGo fuel₁ (filterToODataExpression f ++ rest) [] parts =
      splitJoinGo fuel₂ rest (filterToODataExpression f) parts := by
  obtain ⟨⟨⟨hpne, hplow⟩, hpa, hpo⟩, hop, hval⟩ := hf
  obtain ⟨hvne, hvplain, _⟩ := goodValue_vtok f.value hval
  obtain ⟨hvand, hvor⟩ := goodValue_nomatch f.value hval rest hrest
  obtain ⟨oc, ocs, hoc⟩ : ∃ oc ocs, f.operator.data = oc :: ocs := by
    cases hh : f.operator.data with
    | nil => exact absurd hh (serializableOps_data_ne _ hop)
    | cons oc ocs => exact ⟨oc, ocs, rfl⟩
  have hhead := serializableOps_head f.operator hop oc (by rw [hoc]; rfl)
  rw [filterToODataExpression_good f hop] at h₁ ⊢
  have hshape :
      (f.prop.data ++ ' ' :: (f.operator.data ++ ' ' :: formatFilterValue f.value)) ++ rest
        = f.prop.data ++
          (' ' :: (f.operator.data ++ (' ' :: (formatFilterValue f.value ++ rest)))) := by
    simp [List.append_assoc]
  rw [hshape] at h₁ ⊢
  rw [splitJoinGo_scan_plain f.prop.data _ [] parts fuel₁
    (' ' :: (f.operator.data ++ (' ' :: (formatFilterValue f.value ++ rest)))).length
    (fun c hc => lower_not_ws c (hplow c hc).1) h₁ (Nat.le_refl _)]
  rw [show f.operator.data ++ (' ' :: (formatFilterValue f.value ++ rest)) =
      oc :: (ocs ++ (' ' :: (formatFilterValue f.value ++ rest))) from by
    rw [hoc, List.cons_append]]
  rw [splitJoinGo_step_space (oc :: (ocs ++ (' ' :: (formatFilterValue f.value ++ rest))))
    ([] ++ f.prop.data) parts _
    (oc :: (ocs ++ (' ' :: (formatFilterValue f.value ++ rest)))).length
    (Nat.le_refl _) (Nat.le_refl _)
    (matchJoin_space_head_ne 'a' ['n', 'd'] oc _ hhead.2.2 hhead.1)
    (matchJoin_space_head_ne 'o' ['r'] oc _ hhead.2.2 hhead.2.1)]
  rw [show oc :: (ocs ++ (' ' :: (formatFilterValue f.value ++ rest))) =
      f.operator.data ++ (' ' :: (formatFilterValue f.value ++ rest)) from by
    rw [hoc, List.cons_append]]
  rw [splitJoinGo_scan_plain f.operator.data _ _ parts _
    (' ' :: (formatFilterValue f.value ++ rest)).length
    (fun c hc => lower_not_ws c (serializableOps_lower _ hop c hc).1)
    (Nat.le_refl _) (Nat.le_refl _)]
  rw [splitJoinGo_step_space (formatFilterValue f.value ++ rest) _ parts _
    (formatFilterValue f.value ++ rest).length
    (Nat.le_refl _) (Nat.le_refl _) hvand hvor]
  rw [splitJoinGo_scan_plain (formatFilterValue f.value) rest _ parts _ fuel₂
    (fun c hc => (hvplain c hc).1) (Nat.le_refl _) h₂]
  congr 1
  simp [List.append_assoc]

theorem expr_head (f : ParsedFilter) (hf : goodFilter f) :
    ∃ c cs, filterToODataExpression f = c :: cs ∧ 97 ≤ c.toNat := by
  obtain ⟨⟨⟨hpne, hplow⟩, -, -⟩, hop, -⟩ := hf
  obtain ⟨c, p', hp⟩ : ∃ c p', f.prop.data = c :: p' := by
    cases hh : f.prop.data with
    | nil => exact absurd hh hpne
    | cons c p' => exact ⟨c, p', rfl⟩
  refine ⟨c, p' ++ ' ' :: (f.operator.data ++ ' ' :: formatFilterValue f.value), ?_,
    (hplow c (by rw [hp]; exact List.mem_cons_self c p')).1⟩
  rw [filterToODataExpression_good f hop, hp, List.cons_append]

theorem trim_expr (f : ParsedFilter) (hf : goodFilter f) :
    trimChars (filterToODataExpression f) = filterToODataExpression f ∧
    filterToODataExpression f ≠ [] := by
  obtain ⟨⟨⟨hpne, hplow⟩, -, -⟩, hop, hval⟩ := hf
  obtain ⟨hvne, hvplain, -⟩ := goodValue_vtok f.value hval
  obtain ⟨c, p', hp⟩ : ∃ c p', f.prop.data = c :: p' := by
    cases hh : f.prop.data with
    | nil => exact absurd hh hpne
    | cons c p' => exact ⟨c, p', rfl⟩
  obtain ⟨vinit, vlast, hv⟩ := (List.eq_nil_or_concat (formatFilterValue f.value)).resolve_left hvne
  rw [List.concat_eq_append] at hv
  have hcws : jsWs c = false :=
    lower_not_ws c (hplow c (by rw [hp]; exact List.mem_cons_self c p')).1
  have hvws : jsWs vlast = false :=
    (hvplain vlast (by rw [hv]; exact List.mem_append_right _ (List.mem_singleton_self _))).1
  have hshape : filterToODataExpression f =
      c :: ((p' ++ ' ' :: (f.operator.data ++ ' ' :: vinit)) ++ [vlast]) := by
    rw [filterToODataExpression_good f hop, hp, hv]
    simp [List.append_assoc]
  constructor
  · rw [hshape]
    exact trimChars_cons_concat c _ vlast hcws hvws
  · rw [hshape]
    exact List.cons_ne_nil _ _

theorem jsJoin_cons_ne (sep e : List Char) (es : List (List Char)) (hne : es ≠ []) :
    jsJoin sep (e :: es) = e ++ sep ++ jsJoin sep es := by
  cases es with
  | nil => exact absurd rfl hne
  | cons e₂ es' => rfl

theorem jsJoin_exprs_head (D : List ParsedFilter) (hD : ∀ f ∈ D, goodFilter f)
    (hne : D ≠ []) :
    ∃ d r, jsJoin " and ".data (D.map filterToODataExpression) = d :: r ∧
      jsWs d = false := by
  cases D with
  | nil => exact absurd rfl hne
  | cons f D' =>
    obtain ⟨c, cs, hc, hlow⟩ := expr_head f (hD f (List.mem_cons_self f D'))
    cases D' with
    | nil => exact ⟨c, cs, hc, lower_not_ws c hlow⟩
    | cons f₂ D'' =>
      refine ⟨c, cs ++ (" and ".data ++
        jsJoin " and ".data ((f₂ :: D'').map filterToODataExpression)), ?_,
        lower_not_ws c hlow⟩
      rw [List.map_cons, jsJoin_cons_ne _ _ _ (by simp), hc, List.append_assoc,
        List.cons_append]

theorem splitJoin_good (D : List ParsedFilter) :
    (∀ f ∈ D, goodFilter f) → D ≠ [] →
    ∀ (fuel : Nat) (parts : List (List Char)),
    (jsJoin " and ".data (D.map filterToODataExpression)).length ≤ fuel →
    splitJoinGo fuel (jsJoin " and ".data (D.map filterToODataExpression)) [] parts =
      parts ++ withAndMarkers (D.map filterToODataExpression) := by
  induction D with
  | nil => intro _ hne; exact absurd rfl hne
  | cons f D' ih =>
    intro hgood _ fuel parts hfuel
    have hf := hgood f (List.mem_cons_self f D')
    obtain ⟨htrim, hene⟩ := trim_expr f hf
    cases D' with
    | nil =>
      rw [List.map_cons, List.map_nil] at hfuel ⊢
      have hjoin : jsJoin " and ".data [filterToODataExpression f] =
          filterToODataExpression f := rfl
      rw [hjoin] at hfuel ⊢
      rw [show splitJoinGo fuel (filterToODataExpression f) [] parts =
          splitJoinGo fuel (filterToODataExpression f ++ []) [] parts from by
        rw [List.append_nil]]
      rw [scan_expr f hf [] (Or.inl rfl) fuel 0 parts
        (by rw [List.append_nil]; exact hfuel) (Nat.le_refl _)]
      rw [splitJoinGo.eq_1, htrim, if_pos hene]
      rfl
    | cons f₂ D'' =>
      have hgood' : ∀ g ∈ f₂ :: D'', goodFilter g :=
        fun g hg => hgood g (List.mem_cons_of_mem f hg)
      obtain ⟨d, r, hd, hdws⟩ :=
        jsJoin_exprs_head (f₂ :: D'') hgood' (List.cons_ne_nil f₂ D'')
      rw [List.map_cons, jsJoin_cons_ne _ _ _ (by simp), List.append_assoc, hd]
        at hfuel ⊢
      rw [show " and ".data ++ (d :: r) =
          ' ' :: 'a' :: 'n' :: 'd' :: ' ' :: d :: r from rfl] at hfuel ⊢
      rw [scan_expr f hf (' ' :: 'a' :: 'n' :: 'd' :: ' ' :: d :: r)
        (Or.inr ⟨_, rfl⟩) fuel (' ' :: 'a' :: 'n' :: 'd' :: ' ' :: d :: r).length
        parts hfuel (Nat.le_refl _)]
      rw [splitJoinGo_sep d r (filterToODataExpression f) parts _ (d :: r).length
        hdws (by rw [htrim]; exact hene) (Nat.le_refl _) (Nat.le_refl _)]
      rw [htrim, ← hd]
      rw [ih hgood' (List.cons_ne_nil f₂ D'')
        (jsJoin " and ".data ((f₂ :: D'').map filterToODataExpression)).length
        (parts ++ [filterToODataExpression f, "AND".data]) (Nat.le_refl _)]
      rw [List.map_cons]
      rw [show withAndMarkers (filterToODataExpression f :: filterToODataExpression f₂ ::
          List.map filterToODataExpression D'') =
          filterToODataExpression f :: "AND".data ::
            withAndMarkers (filterToODataExpression f₂ ::
              List.map filterToODataExpression D'') from rfl]
      simp [List.append_assoc]

theorem filter_withAndMarkers (es : List (List Char))
    (h : ∀ e ∈ es, ∃ c cs, e = c :: cs ∧ 97 ≤ c.toNat) :
    (withAndMarkers es).filter (fun p => p ≠ "AND".data ∧ p ≠ "OR".data) = es := by
  induction es with
  | nil => rfl
  | cons e es' ih =>
    obtain ⟨c, cs, rfl, hc⟩ := h e (List.mem_cons_self e es')
    have hene : (c :: cs) ≠ "AND".data ∧ (c :: cs) ≠ "OR".data := by
      constructor <;>
        · intro hh
          injection hh with h1 _
          rw [h1] at hc
          revert hc
          decide
    cases es' with
    | nil =>
      show List.filter _ [c :: cs] = [c :: cs]
      rw [List.filter_cons_of_pos (by simp [hene.1, hene.2])]
      rfl
    | cons e₂ es'' =>
      show List.filter _ ((c :: cs) :: "AND".data :: withAndMarkers (e₂ :: es'')) = _
      rw [List.filter_cons_of_pos (by simp [hene.1, hene.2]),
        List.filter_cons_of_neg (by simp),
        ih (fun g hg => h g (List.mem_cons_of_mem _ hg))]

theorem flatten_parse_good (D : List ParsedFilter) (h : ∀ f ∈ D, goodFilter f) :
    ((D.map filterToODataExpression).map parseODataExpression).flatten = D := by
  induction D with
  | nil => rfl
  | cons f D' ih =>
    rw [List.map_cons, List.map_cons, List.flatten_cons,
      parseODataExpression_good f (h f (List.mem_cons_self f D')),
      ih (fun g hg => h g (List.mem_cons_of_mem f hg))]
    rfl

/-! ## Claim theorems -/

/-- C1 counterexample: the round trip fails inside the claim's own domain.
The descriptor `{prop: "a", operator: "eq", value: "18"}` has a scalar string
value with no quote, space or special character, yet parsing its serialized
form `"a eq 18"` coerces the value to the number `18`, so
`parse(serialize(D)) ≠ D`. -/
theorem C1_roundtrip_counterexample :
    parseFilterQueryParams (buildFilterQueryParams [⟨"a", "eq", .str "18"⟩] "and") ≠
      [⟨"a", "eq", .str "18"⟩] := by
  intro h
  have h2 : parseFilterQueryParams
      (buildFilterQueryParams [⟨"a", "eq", .str "18"⟩] "and") =
      [⟨"a", "eq", .num 18⟩] := rfl
  rw [h2] at h
  simp at h

/-- C1 amended: the round trip `parse(serialize(D)) = D` does hold on the
fragment the implementation preserves: every descriptor has a bare
lowercase-alphabetic property name (not `and`/`or`), an operator among the
all-lowercase non-array non-null operators `eq ne gt ge lt le contains
startswith endswith`, and a value that is a bare lowercase-alphabetic string
(none of the coerced literals `null`/`true`/`false` and not a joiner word), a
boolean, or a safe-range integer. -/
theorem C1_roundtrip_amended (D : List ParsedFilter) (h : ∀ f ∈ D, goodFilter f) :
    parseFilterQueryParams (buildFilterQueryParams D "and") = D := by
  cases D with
  | nil => rfl
  | cons f D' =>
    have hbuild : buildFilterQueryParams (f :: D') "and" =
        some (String.mk (jsJoin " and ".data
          ((f :: D').map filterToODataExpression))) := rfl
    rw [hbuild]
    have hLne : jsJoin " and ".data ((f :: D').map filterToODataExpression) ≠ [] := by
      obtain ⟨d, r, hd, -⟩ := jsJoin_exprs_head (f :: D') h (List.cons_ne_nil f D')
      rw [hd]
      exact List.cons_ne_nil _ _
    simp only [parseFilterQueryParams]
    rw [if_neg (fun hh => hLne (by
      have := congrArg String.data hh
      simpa using this))]
    rw [show ([' ', 'a', 'n', 'd', ' '] : List Char) = " and ".data from rfl]
    rw [splitJoin_good (f :: D') h (List.cons_ne_nil f D') _ [] (Nat.le_refl _)]
    rw [List.nil_append]
    rw [filter_withAndMarkers _ (fun e he => by
      obtain ⟨g, hg, rfl⟩ := List.mem_map.mp he
      exact expr_head g (h g hg))]
    exact flatten_parse_good (f :: D') h

/-- C1 witness: the amended round trip applied to a concrete two-descriptor
sequence with a string value and a number value. -/
theorem C1_roundtrip_witness :
    (∀ f ∈ ([⟨"name", "eq", .str "bob"⟩, ⟨"age", "lt", .num 30⟩] : List ParsedFilter),
      goodFilter f) ∧
    parseFilterQueryParams (buildFilterQueryParams
      [⟨"name", "eq", .str "bob"⟩, ⟨"age", "lt", .num 30⟩] "and") =
      [⟨"name", "eq", .str "bob"⟩, ⟨"age", "lt", .num 30⟩] :=
  ⟨by decide, C1_roundtrip_amended _ (by decide)⟩

/-- C2: the code evaluated at the claim's input.  The claim states that
parsing `"deletedAt isNull"` yields the single descriptor
`{prop: "deletedAt", operator: "isNull", value: null}`; the code instead
yields the empty list, because the cursor loop only builds a descriptor when
three tokens remain (`i + 2 < tokens.length`) and because the lower-cased
token `"isnull"` is not a member of `FilterOperator` (whose value is the
camel-cased `"isNull"`). -/
theorem C2_isNull_parse_eval :
    parseFilterQueryParams (some "deletedAt isNull") = [] := by rfl

/-- C3: the code evaluated at the claim's input.  The claim states that
parsing `"role in (admin, editor)"` yields the array value
`["admin", "editor"]`; the code yields `["admin", "", "editor"]`, because
the tokenizer keeps the comma attached to `admin,`, the collection loop
re-joins with `", "` producing `"(admin,, editor)"`, and splitting that on
`','` leaves an empty element. -/
theorem C3_in_parse_eval :
    parseFilterQueryParams (some "role in (admin, editor)") =
      [⟨"role", "in", .arr [.str "admin", .str "", .str "editor"]⟩] := by rfl

/-- C5 counterexample: the mapping entry for a property is not always the
translation of the last filter on that property.  Here the last filter on
`"a"` is an `in` filter with a non-array value, whose translation is no
predicate at all, yet the mapping keeps the earlier `eq` predicate. -/
theorem C5_last_write_counterexample :
    objGet (convertFiltersToFindOptionsWhere
        [⟨"a", "eq", .str "x"⟩, ⟨"a", "in", .str "y"⟩]) "a" =
      some (.equal (.str "x")) ∧
    translateFilter ⟨"a", "in", .str "y"⟩ = none := ⟨rfl, rfl⟩

/-- C5 amended: the mapping entry for each property equals the translation
of the last filter on that property *whose translation produces a
predicate*; filters rejected by the `in`/`notIn` array guard write nothing
and leave the previous entry in place. -/
theorem C5_last_write_amended (filters : List ParsedFilter) (p : String) :
    objGet (convertFiltersToFindOptionsWhere filters) p =
      lastWrittenPredicate filters p := by
  rw [convertFiltersToFindOptionsWhere, objGet_convert_fold]
  cases hlw : lastWrittenPredicate filters p <;> simp [objGet]

/-- C4: no descriptor the parser returns carries the operator `notIn`,
`isNull` or `isNotNull`: the loop stores the lower-cased operator token and
those three enum values contain an ASCII uppercase letter, which a
lower-cased token can never contain. -/
theorem C4_no_camelcase_operators (query : Option String) (f : ParsedFilter)
    (hf : f ∈ parseFilterQueryParams query) :
    f.operator ∉ (["notIn", "isNull", "isNotNull"] : List String) := by
  have hshape : ∃ o : List Char, f.operator = String.mk (o.map charToLower) := by
    match query with
    | none => cases hf
    | some s =>
      by_cases hs : s = ""
      · subst hs
        have h0 : parseFilterQueryParams (some "") = [] := rfl
        rw [h0] at hf
        cases hf
      · simp only [parseFilterQueryParams] at hf
        rw [if_neg hs] at hf
        rw [List.mem_flatten] at hf
        obtain ⟨l, hl, hfl⟩ := hf
        rw [List.mem_map] at hl
        obtain ⟨part, _, rfl⟩ := hl
        simp only [parseODataExpression] at hfl
        exact parseLoop_operator_shape _ _ _ hfl
  obtain ⟨o, ho⟩ := hshape
  intro hmem
  have hne : ∀ target : String,
      (∃ c ∈ target.data, 65 ≤ c.toNat ∧ c.toNat ≤ 90) → f.operator ≠ target := by
    intro target ht heq
    apply map_charToLower_ne o target.data ht
    have hd : (String.mk (o.map charToLower)).data = target.data := by rw [← ho, heq]
    simpa using hd
  simp only [List.mem_cons, List.not_mem_nil, or_false] at hmem
  rcases hmem with h | h | h
  · exact hne "notIn" (by decide) h
  · exact hne "isNull" (by decide) h
  · exact hne "isNotNull" (by decide) h

/-- C4 witness: the invariant applied to the parse of `"a eq b"`, whose
single descriptor has operator `eq`. -/
theorem C4_witness :
    ((⟨"a", "eq", .str "b"⟩ : ParsedFilter) ∈
      parseFilterQueryParams (some "a eq b")) ∧
    (⟨"a", "eq", .str "b"⟩ : ParsedFilter).operator ∉
      (["notIn", "isNull", "isNotNull"] : List String) := by
  have hmem : (⟨"a", "eq", .str "b"⟩ : ParsedFilter) ∈
      parseFilterQueryParams (some "a eq b") := by
    have h : parseFilterQueryParams (some "a eq b") = [⟨"a", "eq", .str "b"⟩] := rfl
    rw [h]
    exact List.mem_singleton_self _
  exact ⟨hmem, C4_no_camelcase_operators _ _ hmem⟩

/-- C6: a `prop operator value` triplet whose lower-cased operator token is
not a member of `FilterOperator` is silently dropped (the loop continues
after the triplet with no descriptor and no error), and in particular
`parse("name bogus x")` is the empty sequence. -/
theorem C6_unknown_operator_dropped :
    (∀ (p o v : List Char) (rest : List (List Char)),
      p.map charToLower ≠ "and".data → p.map charToLower ≠ "or".data →
      o.map charToLower ∉ filterOperatorData →
      parseLoop (p :: o :: v :: rest).length (p :: o :: v :: rest) =
        parseLoop rest.length rest) ∧
    parseFilterQueryParams (some "name bogus x") = [] := by
  constructor
  · intro p o v rest hp1 hp2 hmem
    have hlen : (p :: o :: v :: rest).length = rest.length + 2 + 1 := by
      simp only [List.length_cons]
    rw [hlen, parseLoop.eq_3]
    have hj : ¬(p.map charToLower = "and".data ∨ p.map charToLower = "or".data) := by
      rintro (h | h)
      · exact hp1 h
      · exact hp2 h
    rw [if_neg hj]
    have hnin : ¬((o.map charToLower = "in".data ∨ o.map charToLower = "notIn".data) ∧
        v = "(".data ∧ rest ≠ []) := by
      rintro ⟨h | h, -⟩
      · apply hmem
        rw [h]
        decide
      · apply hmem
        rw [h]
        decide
    rw [if_neg hnin, if_neg hmem, List.nil_append]
    exact parseLoop_fuel_irrel _ _ rest (by omega) (Nat.le_refl _)
  · rfl

/-- C6 witness: the drop lemma applied at the tokens of `"name bogus x"`. -/
theorem C6_witness :
    ("name".data.map charToLower ≠ "and".data) ∧
    ("bogus".data.map charToLower ∉ filterOperatorData) ∧
    parseLoop 3 ["name".data, "bogus".data, "x".data] = parseLoop 0 [] :=
  ⟨by decide, by decide,
   C6_unknown_operator_dropped.1 "name".data "bogus".data "x".data []
     (by decide) (by decide) (by decide)⟩

/-- C7: the translator is total (it is a Lean function) and degrades
silently: an `in`/`notIn` filter whose value is not a non-empty array
contributes no entry for its property, and a filter whose operator is
outside the enumerated switch cases falls to the default and contributes
`equals(value)`. -/
theorem C7_translator_leniency :
    (∀ f : ParsedFilter, (f.operator = "in" ∨ f.operator = "notIn") →
      badArrValue f.value →
      objGet (convertFiltersToFindOptionsWhere [f]) f.prop = none) ∧
    (∀ f : ParsedFilter, f.operator ∉ FilterOperator →
      objGet (convertFiltersToFindOptionsWhere [f]) f.prop =
        some (.equal f.value)) := by
  constructor
  · intro f hop hbad
    have htr : translateFilter f = none := by
      rcases hop with h | h <;>
        · simp only [translateFilter, h]
          cases hval : f.value with
          | arr vs =>
            rw [hval] at hbad
            have : vs = [] := hbad
            simp [this]
          | null => rfl
          | str s => rfl
          | num n => rfl
          | bool b => rfl
    simp [convertFiltersToFindOptionsWhere, htr, objGet]
  · intro f hop
    have htr : translateFilter f = some (.equal f.value) := by
      unfold translateFilter
      split
      any_goals rfl
      all_goals
        exfalso
        apply hop
        simp_all [FilterOperator]
    simp [convertFiltersToFindOptionsWhere, htr, objGet_objSet_same]

/-- C7 witness: the leniency theorem applied at concrete inputs: an `in`
filter with the non-array value `"x"`, and a filter with the unknown
operator `"weird"`. -/
theorem C7_witness :
    badArrValue (FilterValue.str "x") ∧
    objGet (convertFiltersToFindOptionsWhere [⟨"a", "in", .str "x"⟩]) "a" = none ∧
    ("weird" ∉ FilterOperator) ∧
    objGet (convertFiltersToFindOptionsWhere [⟨"b", "weird", .bool true⟩]) "b" =
      some (.equal (.bool true)) :=
  ⟨trivial,
   C7_translator_leniency.1 ⟨"a", "in", .str "x"⟩ (Or.inl rfl) trivial,
   by decide,
   C7_translator_leniency.2 ⟨"b", "weird", .bool true⟩ (by decide)⟩

/-- C8: empty-input identities: serializing the empty descriptor sequence
emits no `filter` parameter (for any logical operator, in particular the
default `and`), and parsing an absent or empty filter string yields the
empty descriptor sequence. -/
theorem C8_empty_identities :
    (∀ logicalOperator : String, buildFilterQueryParams [] logicalOperator = none) ∧
    parseFilterQueryParams none = [] ∧
    parseFilterQueryParams (some "") = [] :=
  ⟨fun _ => rfl, rfl, rfl⟩

/-- C9: a string value is quoted (wrapped in single quotes with internal
single quotes doubled) exactly when it contains a space, a single or double
quote, or `@`; otherwise it is emitted bare.  In particular the `email eq
'a@b.com'` example of the spec. -/
theorem C9_string_quoting :
    (∀ s : String, (∃ c ∈ s.data, c = ' ' ∨ c = '\'' ∨ c = '"' ∨ c = '@') →
      formatFilterValue (.str s) = '\'' :: doubleQuoteEsc s.data ++ ['\'']) ∧
    (∀ s : String, (¬ ∃ c ∈ s.data, c = ' ' ∨ c = '\'' ∨ c = '"' ∨ c = '@') →
      formatFilterValue (.str s) = s.data) ∧
    filterToODataExpression ⟨"email", "eq", .str "a@b.com"⟩ =
      "email eq 'a@b.com'".data := by
  refine ⟨fun s h => ?_, fun s h => ?_, rfl⟩
  · have hany : s.data.any (fun c => c == ' ' || c == '\'' || c == '"' || c == '@') = true := by
      rw [List.any_eq_true]
      obtain ⟨c, hc, hor⟩ := h
      refine ⟨c, hc, ?_⟩
      rcases hor with h | h | h | h <;> simp [h]
    simp [formatFilterValue, hany]
  · have hany : s.data.any (fun c => c == ' ' || c == '\'' || c == '"' || c == '@') = false := by
      rw [Bool.eq_false_iff]
      intro hx
      rw [List.any_eq_true] at hx
      obtain ⟨c, hc, hor⟩ := hx
      apply h
      refine ⟨c, hc, ?_⟩
      simp only [Bool.or_eq_true, beq_iff_eq] at hor
      tauto
    simp [formatFilterValue, hany]

/-- C9 witness: the quoting theorem applied at the concrete strings
`"a@b.com"` (quoted) and `"active"` (bare). -/
theorem C9_witness :
    formatFilterValue (.str "a@b.com") = "'a@b.com'".data ∧
    formatFilterValue (.str "active") = "active".data :=
  ⟨by rw [C9_string_quoting.1 "a@b.com" ⟨'@', by decide, by decide⟩]; rfl,
   by rw [C9_string_quoting.2.1 "active" (by decide)]⟩

/-- C10: parsing `"age gt 18 and status eq active"` yields exactly the two
descriptors in order, with `18` coerced to a number, `active` kept as a
bare string, and the `and` joiner consumed. -/
theorem C10_parse_and_example :
    parseFilterQueryParams (some "age gt 18 and status eq active") =
      [⟨"age", "gt", .num 18⟩, ⟨"status", "eq", .str "active"⟩] := by rfl

end NestFilter
